import Mathlib

/-!
Shallow embedding of `src/round_numbers.rs` (Poseidon round-number search).

Modelling conventions, documented once here:

* Rust `usize` values are modelled as `ℕ`.  The only arithmetic that can
  overflow a 64-bit `usize` for inputs reachable by the search is the cost
  `t * rf + rp`, so `n_sboxes` carries an explicit `% 2 ^ 64`
  (release-mode wrapping semantics; a debug build would abort instead, and
  for `t ≤ 2 ^ 53` no overflow occurs at all, so both builds agree with
  the un-wrapped value there).
* Every `f32` literal of the source is replaced by its exact value as a
  dyadic rational, represented by an integer numerator over a power-of-two
  denominator: `0.43f32 = 14428406 / 2^25`, `0.21f32 = 14092861 / 2^26`,
  `0.14f32 = 9395241 / 2^26`, `1.075f32 = 9017754 / 2^23`.
* Multiplications by the powers of two `M = 128` and `PRIME_BITLEN = 256`
  are exact in `f32` and hence modelled exactly; so is
  `0.14 * 256 - 1 = 9133097 / 2^18`.
* The `f32` base-2 logarithm `(t as f32).log2()` is platform/libm
  dependent and is therefore kept as an abstract parameter
  `flog2 : ℕ → ℤ`, scaled by `2^23`: `flog2 t` models
  `(t as f32).log2() * 2^23` (every `f32` value in `[0, 64]` is an integer
  multiple of `2^-23`).  Concrete instantiations below are only used at
  inputs where the `f32` logarithm is exact (powers of two, or a width
  whose `f32` rounding is a power of two).
* The remaining `f32` additions/subtractions/divisions are evaluated as
  exact rationals.  For the inputs used concretely in this file the final
  `.ceil()` results coincide with `f32` evaluation: the quantities
  `0.43*128 + log2 t - rp`, `0.21*256 - rp` and `0.14*256 - 1 - rp` sit at
  distance at least `0.04` (resp. `0.16 / (t-1)` after the division) from
  every integer, far beyond the worst-case `f32` rounding error of the one
  or two inexactly rounded intermediate operations.
* `x.ceil() as usize` saturates: negative values (and `-inf`, and NaN) go
  to `0`, values at or above `usize::MAX` (and `+inf`) go to `usize::MAX`.
  A division with zero denominator is the IEEE `±inf` / NaN case and is
  modelled explicitly in `ceilAsUsize`.
-/

namespace Neptune

/-- `usize::MAX` on a 64-bit target. -/
def usizeMax : ℕ := 2 ^ 64 - 1

/-- The number of bits of the Poseidon prime field modulus (`n` in the paper). -/
def PRIME_BITLEN : ℕ := 256

/-- Security level in bits (`M` in the paper). -/
def M : ℕ := 128

/-- Fuel-based binary logarithm, structurally recursive so that the kernel
can evaluate it; with fuel `64` it returns the index of the leading bit
(the floor of `log2`) for every positive `n < 2 ^ 64`. -/
def log2Aux : ℕ → ℕ → ℕ
  | 0, _ => 0
  | fuel + 1, n => if n ≤ 1 then 0 else log2Aux fuel (n / 2) + 1

/-- Models Rust `x.ceil() as usize` where `x` is the `f32` value `num / den`
(both sides scaled by the same power of two).  `den = 0` encodes the IEEE
result of an `f32` division by `±0.0`: `+inf` for a positive numerator
(the cast saturates to `usize::MAX`), `-inf` or NaN otherwise (the cast
gives `0`). -/
def ceilAsUsize (num den : ℤ) : ℕ :=
  if den = 0 then (if 0 < num then usizeMax else 0)
  else
    let n2 : ℤ := if den < 0 then -num else num
    let d2 : ℤ := if den < 0 then -den else den
    if n2 ≤ 0 then 0 else min ((n2.toNat + d2.toNat - 1) / d2.toNat) usizeMax

/-- The number of S-boxes (the "cost"), equation (14) of the Poseidon paper:
`cost = t * R_F + R_P`, computed in `usize` (hence the explicit wrap). -/
def n_sboxes (rf rp t : ℕ) : ℕ := (t * rf + rp) % 2 ^ 64

/-- The local `rf_stat` of `round_numbers_are_secure`:
`if m <= (n - 3.0) * (t + 1.0) { 6.0 } else { 10.0 }`, ceil-cast.  The
comparison `128 ≤ 253 * (t+1)` is unaffected by the `f32` rounding of `t`
(the right-hand side is at least `253` for every `t : usize`), so it is
modelled exactly. -/
def rf_stat_bound (t : ℕ) : ℕ :=
  if (M : ℤ) ≤ ((PRIME_BITLEN : ℤ) - 3) * ((t : ℤ) + 1) then 6 else 10

/-- `(0.43 * m + t.log2() - rp).ceil() as usize`, scaled by `2^23`. -/
def rf_interp_bound (flog2 : ℕ → ℤ) (rp t : ℕ) : ℕ :=
  ceilAsUsize (14428406 * 2 ^ 5 + flog2 t - (rp : ℤ) * 2 ^ 23) (2 ^ 23)

/-- `(0.21 * n - rp).ceil() as usize`, scaled by `2^18`. -/
def rf_grob_1_bound (rp : ℕ) : ℕ :=
  ceilAsUsize (14092861 - (rp : ℤ) * 2 ^ 18) (2 ^ 18)

/-- `((0.14 * n - 1.0 - rp) / (t - 1.0)).ceil() as usize`, scaled by `2^18`. -/
def rf_grob_2_bound (rp t : ℕ) : ℕ :=
  ceilAsUsize (9133097 - (rp : ℤ) * 2 ^ 18) (((t : ℤ) - 1) * 2 ^ 18)

/-- The value `rf_max` computed inside `round_numbers_are_secure`: the
maximum of the four individually ceil-cast security bounds, with `flog2`
abstracting the `f32` logarithm (scaled by `2^23`, see the file header).
The four bound definitions above correspond line by line to the four local
variables of the source function; the constants are the exact values of
the `f32` arithmetic as explained in the file header. -/
def rfMaxCode (flog2 : ℕ → ℤ) (rp t : ℕ) : ℕ :=
  max (max (rf_stat_bound t) (rf_interp_bound flog2 rp t))
    (max (rf_grob_1_bound rp) (rf_grob_2_bound rp t))

/-- `round_numbers_are_secure` from the source: `rf >= rf_max`. -/
def round_numbers_are_secure (flog2 : ℕ → ℤ) (rf rp t : ℕ) : Bool :=
  decide (rfMaxCode flog2 rp t ≤ rf)

/-- Models `(1.075 * rp_test as f32).ceil() as usize` from the source.
`1.075f32 * rp` is the round-to-nearest-even `f32` rounding of the exact
product `9017754 * rp / 2^23` to a 24-bit significand, computed here
exactly: `b` is the index of the leading bit of the integer product `P`,
`s` the number of low bits dropped by the rounding, and `q2` the rounded
significand (ties to even). -/
def margin_rp (rp : ℕ) : ℕ :=
  let P := 9017754 * rp
  if P = 0 then 0
  else
    let b := log2Aux 64 P
    if b ≤ 23 then (P + 2 ^ 23 - 1) / 2 ^ 23
    else
      let s := b - 23
      let q := P / 2 ^ s
      let r := P % 2 ^ s
      let q2 := if 2 * r < 2 ^ s then q
        else if 2 ^ s < 2 * r then q + 1
        else if q % 2 = 0 then q else q + 1
      (q2 * 2 ^ s + 2 ^ 23 - 1) / 2 ^ 23

/-- One iteration of the inner loop body of `calc_round_numbers`: the state
is `(rf, rp, n_sboxes_min)`, the candidate is `c = (rf_test, rp_test)`.
Mirrors the source: the security check uses the raw loop values; on success
the margin (if requested) bumps the local variables, then the candidate
replaces the best on strictly smaller cost, or on equal cost with strictly
smaller (post-margin) `rf_test` than the stored `rf`. -/
def searchStep (flog2 : ℕ → ℤ) (t : ℕ) (security_margin : Bool)
    (s : ℕ × ℕ × ℕ) (c : ℕ × ℕ) : ℕ × ℕ × ℕ :=
  if round_numbers_are_secure flog2 c.1 c.2 t then
    let rf2 := if security_margin then c.1 + 2 else c.1
    let rp2 := if security_margin then margin_rp c.2 else c.2
    let cost := n_sboxes rf2 rp2 t
    if cost < s.2.2 ∨ (cost = s.2.2 ∧ rf2 < s.1) then (rf2, rp2, cost) else s
  else s

/-- The outer loop range `(2..=1000).step_by(2)`. -/
def rfCandidates : List ℕ := (List.range 500).map (fun i => 2 * i + 2)

/-- The inner loop range `4..200`. -/
def rpCandidates : List ℕ := (List.range 196).map (fun i => i + 4)

/-- `calc_round_numbers` from the source: nested fold over the two candidate
ranges, starting from the sentinel state `(0, 0, usize::MAX)`, returning the
final `(rf, rp)`. -/
def calc_round_numbers (flog2 : ℕ → ℤ) (t : ℕ) (security_margin : Bool) : ℕ × ℕ :=
  let s := rfCandidates.foldl
    (fun s rf_test => rpCandidates.foldl
      (fun s rp_test => searchStep flog2 t security_margin s (rf_test, rp_test)) s)
    (0, 0, usizeMax)
  (s.1, s.2.1)

/-- The flattened candidate list, in scan order. -/
def allCandidates : List (ℕ × ℕ) :=
  rfCandidates.flatMap (fun rf => rpCandidates.map (fun rp => (rf, rp)))

/-- The margin adjustment of `calc_round_numbers`, as a function on the
candidate pair: `rf_test += 2; rp_test = (1.075 * rp_test as f32).ceil() as usize`
when the margin is requested, the identity otherwise. -/
def applyMargin (security_margin : Bool) (c : ℕ × ℕ) : ℕ × ℕ :=
  (if security_margin then c.1 + 2 else c.1, if security_margin then margin_rp c.2 else c.2)

/-- The cost stored for a candidate: `n_sboxes` of its post-margin values. -/
def candCost (t : ℕ) (security_margin : Bool) (c : ℕ × ℕ) : ℕ :=
  n_sboxes (applyMargin security_margin c).1 (applyMargin security_margin c).2 t

/-- Models `x.ceil() as usize` on a finite `f32` value given as an exact
rational (spec side of claim C1). -/
def ceilCastQ (q : ℚ) : ℕ := if q ≤ 0 then 0 else min (Int.toNat ⌈q⌉) usizeMax

/-- The exact value of `0.43f32 * 128.0f32` (multiplication by `2^7` is
exact in `f32`). -/
def c043M : ℚ := (14428406 : ℚ) / 2 ^ 25 * 128

/-- The exact value of `0.21f32 * 256.0f32`. -/
def c021N : ℚ := (14092861 : ℚ) / 2 ^ 26 * 256

/-- The exact value of `0.14f32 * 256.0f32 - 1.0f32` (exact in `f32`). -/
def c014N1 : ℚ := (9395241 : ℚ) / 2 ^ 26 * 256 - 1

/-- Claim-side restatement of the maximum of the four individually
ceiling-rounded floating-point bounds of C1, written as exact rational
arithmetic over the `f32` constants, with `n = PRIME_BITLEN = 256` and
`M = 128`: (1) the statistical bound `6` if `M ≤ (n-3)(t+1)` else `10`;
(2) `0.43·M + log2 t - rp`; (3) `0.21·n - rp`; (4) `(0.14·n - 1 - rp)/(t-1)`. -/
def rfMaxSpec (flog2 : ℕ → ℤ) (rp t : ℕ) : ℕ :=
  let stat : ℕ := if (M : ℚ) ≤ ((PRIME_BITLEN : ℚ) - 3) * ((t : ℚ) + 1) then 6 else 10
  let interp : ℕ := ceilCastQ (c043M + (flog2 t : ℚ) / 2 ^ 23 - rp)
  let grob1 : ℕ := ceilCastQ (c021N - rp)
  let grob2 : ℕ := ceilCastQ ((c014N1 - rp) / ((t : ℚ) - 1))
  max (max stat interp) (max grob1 grob2)

/-- A reference instantiation of the abstract `f32` logarithm: equal to the
true `f32` value whenever `t` is a power of two below `2^64`, which is the
only kind of input it is applied to in this file. -/
def flog2ref : ℕ → ℤ := fun t => (log2Aux 64 t : ℤ) * 2 ^ 23

/-- An artificial value of the abstract `f32` logarithm so large that no
candidate in the search grid is ever secure (no real `f32` input produces
it, matching the spec remark that exhaustion cannot happen in practice);
it is used to exercise the search-exhaustion path of claim C6. -/
def flog2none : ℕ → ℤ := fun _ => 2 ^ 63

/-! ### Basic facts about the security predicate -/

theorem secure_iff (flog2 : ℕ → ℤ) (rf rp t : ℕ) :
    round_numbers_are_secure flog2 rf rp t = true ↔ rfMaxCode flog2 rp t ≤ rf := by
  unfold round_numbers_are_secure
  exact decide_eq_true_iff

theorem ceilAsUsize_pos_den (num : ℤ) (d : ℕ) (hd : 0 < d) :
    ceilAsUsize num (d : ℤ) = if num ≤ 0 then 0 else min ((num.toNat + d - 1) / d) usizeMax := by
  have h1 : (d : ℤ) ≠ 0 := by exact_mod_cast hd.ne'
  have h2 : ¬((d : ℤ) < 0) := by omega
  simp only [ceilAsUsize, h1, h2, if_neg, if_false, Int.toNat_natCast]

theorem flog2ref_two : flog2ref 2 = (1 : ℕ) * 2 ^ 23 := by decide

/-- The statistical bound is `6` for every width: `253 * (t+1) ≥ 253 > 128`. -/
theorem rf_stat_bound_eq (t : ℕ) : rf_stat_bound t = 6 := by
  unfold rf_stat_bound
  rw [if_pos]
  simp only [M, PRIME_BITLEN]
  push_cast
  have : (0 : ℤ) ≤ (t : ℤ) := Int.natCast_nonneg t
  omega

/-- Closed form of the interpolation bound when the scaled logarithm is a
natural multiple of `2^23` (as it is at every width used concretely here):
`ceil(55.04 + L - rp)` cast to `usize`. -/
theorem rf_interp_bound_formula (flog2 : ℕ → ℤ) (rp t L : ℕ)
    (hL : flog2 t = (L : ℤ) * 2 ^ 23) (hL64 : L ≤ 64) (h199 : rp ≤ 199) :
    rf_interp_bound flog2 rp t = if rp ≤ 55 + L then 56 + L - rp else 0 := by
  unfold rf_interp_bound
  rw [hL, show ((2:ℤ) ^ 23) = ((2 ^ 23 : ℕ) : ℤ) by norm_num,
    ceilAsUsize_pos_den _ _ (by norm_num)]
  simp only [usizeMax]
  split_ifs <;> omega

/-- Closed form of the first Groebner bound: `ceil(53.76 - rp)` cast. -/
theorem rf_grob_1_bound_formula (rp : ℕ) (h199 : rp ≤ 199) :
    rf_grob_1_bound rp = if rp ≤ 53 then 54 - rp else 0 := by
  unfold rf_grob_1_bound
  rw [show ((2:ℤ) ^ 18) = ((2 ^ 18 : ℕ) : ℤ) by norm_num,
    ceilAsUsize_pos_den _ _ (by norm_num)]
  simp only [usizeMax]
  split_ifs <;> omega

/-- Second Groebner bound at `t = 2`: `ceil(34.84 - rp)` cast. -/
theorem rf_grob_2_bound_t2 (rp : ℕ) (h199 : rp ≤ 199) :
    rf_grob_2_bound rp 2 = if rp ≤ 34 then 35 - rp else 0 := by
  unfold rf_grob_2_bound
  rw [show ((((2:ℕ):ℤ)) - 1) * 2 ^ 18 = ((2 ^ 18 : ℕ) : ℤ) by norm_num,
    ceilAsUsize_pos_den _ _ (by norm_num)]
  simp only [usizeMax]
  split_ifs <;> omega

/-- Closed form of the whole security threshold at `t = 2`. -/
theorem rfMaxCode_t2 (rp : ℕ) (h199 : rp ≤ 199) :
    rfMaxCode flog2ref rp 2 = if rp ≤ 51 then 57 - rp else 6 := by
  unfold rfMaxCode
  rw [rf_stat_bound_eq, rf_interp_bound_formula flog2ref rp 2 1 flog2ref_two (by norm_num) h199,
    rf_grob_1_bound_formula rp h199, rf_grob_2_bound_t2 rp h199]
  split_ifs <;> omega

/-- With the artificial logarithm `flog2none`, the interpolation bound
exceeds the whole search range, so nothing in the grid is ever secure. -/
theorem rfMaxCode_none (rp t : ℕ) (h199 : rp ≤ 199) :
    1000 < rfMaxCode flog2none rp t := by
  have e1 : 1000 < rf_interp_bound flog2none rp t := by
    unfold rf_interp_bound
    rw [show flog2none t = 2 ^ 63 from rfl,
      show ((2:ℤ) ^ 23) = ((2 ^ 23 : ℕ) : ℤ) by norm_num,
      ceilAsUsize_pos_den _ _ (by norm_num)]
    rw [if_neg (by omega)]
    simp only [usizeMax]
    omega
  calc 1000 < rf_interp_bound flog2none rp t := e1
    _ ≤ max (rf_stat_bound t) (rf_interp_bound flog2none rp t) := le_max_right _ _
    _ ≤ rfMaxCode flog2none rp t := le_max_left _ _

/-! ### The margin adjustment of the partial-round count -/

set_option maxRecDepth 40000 in
/-- On the whole inner-loop range the `f32` rounding of `1.075 * rp`
followed by `ceil` coincides with the exact ceiling of `43 * rp / 40`
(at the multiples of `40`, where the exact product is an integer, the
`f32` rounding error is small enough that the rounded product is again
that integer). -/
theorem margin_rp_formula (rp : ℕ) (h4 : 4 ≤ rp) (h199 : rp ≤ 199) :
    margin_rp rp = (43 * rp + 39) / 40 := by
  have h : ∀ r, r < 200 → 4 ≤ r → margin_rp r = (43 * r + 39) / 40 := by decide
  exact h rp (by omega) h4

theorem margin_rp_ge (rp : ℕ) (h4 : 4 ≤ rp) (h199 : rp ≤ 199) : 5 ≤ margin_rp rp := by
  rw [margin_rp_formula rp h4 h199]; omega

/-- The cost is un-wrapped whenever it is below `2^64`. -/
theorem n_sboxes_eq (rf rp t : ℕ) (h : t * rf + rp < 2 ^ 64) :
    n_sboxes rf rp t = t * rf + rp := Nat.mod_eq_of_lt h

/-! ### Fold machinery for the search loop -/

/-- The search fold over an arbitrary candidate list. -/
def foldSearch (flog2 : ℕ → ℤ) (t : ℕ) (sm : Bool) (l : List (ℕ × ℕ)) (s : ℕ × ℕ × ℕ) :
    ℕ × ℕ × ℕ :=
  l.foldl (searchStep flog2 t sm) s

theorem foldSearch_nil (flog2 : ℕ → ℤ) (t : ℕ) (sm : Bool) (s : ℕ × ℕ × ℕ) :
    foldSearch flog2 t sm [] s = s := rfl

theorem foldSearch_cons (flog2 : ℕ → ℤ) (t : ℕ) (sm : Bool) (c : ℕ × ℕ)
    (l : List (ℕ × ℕ)) (s : ℕ × ℕ × ℕ) :
    foldSearch flog2 t sm (c :: l) s = foldSearch flog2 t sm l (searchStep flog2 t sm s c) := by
  simp only [foldSearch, List.foldl_cons]

/-- `searchStep` written with the if-conditions flattened and the margin
adjustment and cost factored through `applyMargin` and `candCost`
(definitionally equal to the source-shaped `searchStep`). -/
theorem searchStep_def (flog2 : ℕ → ℤ) (t : ℕ) (sm : Bool) (s : ℕ × ℕ × ℕ) (c : ℕ × ℕ) :
    searchStep flog2 t sm s c =
      if round_numbers_are_secure flog2 c.1 c.2 t = true then
        (if candCost t sm c < s.2.2 ∨ (candCost t sm c = s.2.2 ∧ (applyMargin sm c).1 < s.1)
          then ((applyMargin sm c).1, (applyMargin sm c).2, candCost t sm c) else s)
      else s := rfl

/-- A step either keeps the state, or stores the post-margin candidate with
its cost, which then does not exceed the previous minimum. -/
theorem searchStep_cases (flog2 : ℕ → ℤ) (t : ℕ) (sm : Bool) (s : ℕ × ℕ × ℕ) (c : ℕ × ℕ) :
    searchStep flog2 t sm s c = s ∨
      (round_numbers_are_secure flog2 c.1 c.2 t = true ∧ candCost t sm c ≤ s.2.2 ∧
        searchStep flog2 t sm s c = ((applyMargin sm c).1, (applyMargin sm c).2, candCost t sm c)) := by
  rw [searchStep_def]
  split_ifs with hsec hrep
  · exact Or.inr ⟨hsec, by omega, rfl⟩
  · exact Or.inl rfl
  · exact Or.inl rfl

/-- The stored minimum never increases. -/
theorem searchStep_min_mono (flog2 : ℕ → ℤ) (t : ℕ) (sm : Bool) (s : ℕ × ℕ × ℕ) (c : ℕ × ℕ) :
    (searchStep flog2 t sm s c).2.2 ≤ s.2.2 := by
  obtain h | ⟨_, hle, heq⟩ := searchStep_cases flog2 t sm s c
  · rw [h]
  · rw [heq]
    exact hle

theorem foldSearch_min_mono (flog2 : ℕ → ℤ) (t : ℕ) (sm : Bool) (l : List (ℕ × ℕ)) :
    ∀ s : ℕ × ℕ × ℕ, (foldSearch flog2 t sm l s).2.2 ≤ s.2.2 := by
  induction l with
  | nil => intro s; rw [foldSearch_nil]
  | cons c l ih =>
    intro s
    rw [foldSearch_cons]
    exact le_trans (ih _) (searchStep_min_mono flog2 t sm s c)

/-- After a step on a secure candidate, the stored minimum is at most that
candidate's cost. -/
theorem searchStep_min_le (flog2 : ℕ → ℤ) (t : ℕ) (sm : Bool) (s : ℕ × ℕ × ℕ) (c : ℕ × ℕ)
    (hsec : round_numbers_are_secure flog2 c.1 c.2 t = true) :
    (searchStep flog2 t sm s c).2.2 ≤ candCost t sm c := by
  rw [searchStep_def, if_pos hsec]
  split_ifs with hrep
  · exact le_refl _
  · push_neg at hrep
    exact hrep.1

/-- The final minimum is at most the cost of every secure candidate seen. -/
theorem foldSearch_min_le (flog2 : ℕ → ℤ) (t : ℕ) (sm : Bool) (l : List (ℕ × ℕ)) :
    ∀ s : ℕ × ℕ × ℕ, ∀ c ∈ l, round_numbers_are_secure flog2 c.1 c.2 t = true →
      (foldSearch flog2 t sm l s).2.2 ≤ candCost t sm c := by
  induction l with
  | nil => intro s c hc; exact absurd hc (List.not_mem_nil c)
  | cons c0 l ih =>
    intro s c hc hsec
    rw [foldSearch_cons]
    rcases List.mem_cons.mp hc with rfl | hc
    · exact le_trans (foldSearch_min_mono flog2 t sm l _)
        (searchStep_min_le flog2 t sm s c hsec)
    · exact ih _ c hc hsec

/-- The final state is the initial one, or records a secure candidate's
post-margin values and cost. -/
theorem foldSearch_attained (flog2 : ℕ → ℤ) (t : ℕ) (sm : Bool) (l : List (ℕ × ℕ)) :
    ∀ s : ℕ × ℕ × ℕ, foldSearch flog2 t sm l s = s ∨
      ∃ c ∈ l, round_numbers_are_secure flog2 c.1 c.2 t = true ∧
        foldSearch flog2 t sm l s = ((applyMargin sm c).1, (applyMargin sm c).2, candCost t sm c) := by
  induction l with
  | nil => intro s; left; rfl
  | cons c0 l ih =>
    intro s
    rw [foldSearch_cons]
    obtain hkeep | ⟨hsec, _, hrep⟩ := searchStep_cases flog2 t sm s c0
    · rw [hkeep]
      rcases ih s with h | ⟨c, hc, hsec, heq⟩
      · exact Or.inl h
      · exact Or.inr ⟨c, List.mem_cons_of_mem c0 hc, hsec, heq⟩
    · rw [hrep]
      rcases ih ((applyMargin sm c0).1, (applyMargin sm c0).2, candCost t sm c0)
        with h | ⟨c, hc, hsec2, heq⟩
      · exact Or.inr ⟨c0, List.mem_cons_self c0 l, hsec, h⟩
      · exact Or.inr ⟨c, List.mem_cons_of_mem c0 hc, hsec2, heq⟩

theorem searchStep_tie (flog2 : ℕ → ℤ) (t : ℕ) (sm : Bool) (s : ℕ × ℕ × ℕ) (c : ℕ × ℕ)
    (X Y : ℕ) (hle : s.2.2 ≤ X) (himp : s.2.2 = X → s.1 ≤ Y) :
    (searchStep flog2 t sm s c).2.2 = X → (searchStep flog2 t sm s c).1 ≤ Y := by
  rw [searchStep_def]
  split_ifs with hsec hrep
  · rcases hrep with hlt | ⟨heq, hrf⟩
    · intro h
      have h2 : candCost t sm c = X := by simpa using h
      omega
    · intro h
      have h2 : candCost t sm c = X := by simpa using h
      exact le_trans (le_of_lt hrf) (himp (by omega))
  · exact himp
  · exact himp

/-- Once the final minimum equals the cost of a processed secure candidate,
the stored full-round count is at most that candidate's post-margin one
(this is the content of the unusual tie-break rule). -/
theorem foldSearch_tie (flog2 : ℕ → ℤ) (t : ℕ) (sm : Bool) (l : List (ℕ × ℕ)) :
    ∀ (s : ℕ × ℕ × ℕ) (X Y : ℕ), s.2.2 ≤ X → (s.2.2 = X → s.1 ≤ Y) →
      (foldSearch flog2 t sm l s).2.2 = X → (foldSearch flog2 t sm l s).1 ≤ Y := by
  induction l with
  | nil => intro s X Y hle himp h; exact himp h
  | cons c l ih =>
    intro s X Y hle himp
    rw [foldSearch_cons]
    exact ih _ X Y (le_trans (searchStep_min_mono flog2 t sm s c) hle)
      (searchStep_tie flog2 t sm s c X Y hle himp)

theorem foldSearch_tie_mem (flog2 : ℕ → ℤ) (t : ℕ) (sm : Bool) (l : List (ℕ × ℕ)) :
    ∀ (s : ℕ × ℕ × ℕ) (c : ℕ × ℕ), c ∈ l → round_numbers_are_secure flog2 c.1 c.2 t = true →
      (foldSearch flog2 t sm l s).2.2 = candCost t sm c →
      (foldSearch flog2 t sm l s).1 ≤ (applyMargin sm c).1 := by
  induction l with
  | nil => intro s c hc; exact absurd hc (List.not_mem_nil c)
  | cons c0 l ih =>
    intro s c hc hsec
    rcases List.mem_cons.mp hc with rfl | hc
    · rw [foldSearch_cons]
      refine foldSearch_tie flog2 t sm l _ _ _ (searchStep_min_le flog2 t sm s c hsec) ?_
      -- after the step on `c` itself, min = cost c forces rf ≤ post-margin rf of c
      rw [searchStep_def, if_pos hsec]
      split_ifs with hrep
      · intro _
        exact le_refl _
      · intro h
        by_contra hcon
        exact hrep (Or.inr ⟨h.symm, lt_of_not_le hcon⟩)
    · rw [foldSearch_cons]
      exact ih _ c hc hsec

/-- If nothing in the list is secure the fold is the identity. -/
theorem foldSearch_skip (flog2 : ℕ → ℤ) (t : ℕ) (sm : Bool) (l : List (ℕ × ℕ)) :
    ∀ s : ℕ × ℕ × ℕ, (∀ c ∈ l, round_numbers_are_secure flog2 c.1 c.2 t = false) →
      foldSearch flog2 t sm l s = s := by
  induction l with
  | nil => intro s _; rfl
  | cons c l ih =>
    intro s h
    rw [foldSearch_cons]
    have hc : round_numbers_are_secure flog2 c.1 c.2 t = false := h c (List.mem_cons_self c l)
    rw [show searchStep flog2 t sm s c = s by
      rw [searchStep_def, if_neg (by rw [hc]; exact Bool.false_ne_true)]]
    exact ih s (fun c hcmem => h c (List.mem_cons_of_mem _ hcmem))

/-! ### Flattening the nested loops -/

/-- A nested left fold over two index lists equals the left fold over the
flattened list of pairs (generic in the step function and state type). -/
theorem foldl_nested {σ : Type} (f : σ → ℕ × ℕ → σ) (A B : List ℕ) :
    ∀ s : σ, A.foldl (fun s rf => B.foldl (fun s rp => f s (rf, rp)) s) s
      = (A.flatMap fun rf => B.map fun rp => (rf, rp)).foldl f s := by
  induction A with
  | nil => intro s; rfl
  | cons a A ih =>
    intro s
    rw [List.foldl_cons, List.flatMap_cons, List.foldl_append, List.foldl_map, ih]

/-- `calc_round_numbers` is the projection of the flattened search fold. -/
theorem calc_round_numbers_eq_fold (flog2 : ℕ → ℤ) (t : ℕ) (sm : Bool) :
    calc_round_numbers flog2 t sm
      = ((foldSearch flog2 t sm allCandidates (0, 0, usizeMax)).1,
          (foldSearch flog2 t sm allCandidates (0, 0, usizeMax)).2.1) := by
  unfold calc_round_numbers foldSearch allCandidates
  rw [foldl_nested]

/-- The search grid, characterised arithmetically. -/
theorem mem_allCandidates (rf rp : ℕ) :
    (rf, rp) ∈ allCandidates ↔ (rf % 2 = 0 ∧ 2 ≤ rf ∧ rf ≤ 1000 ∧ 4 ≤ rp ∧ rp ≤ 199) := by
  unfold allCandidates rfCandidates rpCandidates
  simp only [List.mem_flatMap, List.mem_map, List.mem_range, Prod.mk.injEq]
  constructor
  · rintro ⟨a, ⟨i, hi, rfl⟩, b, ⟨j, hj, rfl⟩, h1, h2⟩
    omega
  · intro h
    exact ⟨rf, ⟨(rf - 2) / 2, by omega, by omega⟩, rp, ⟨rp - 4, by omega, by omega⟩, rfl, rfl⟩

/-! ### Pinning down concrete search results -/

/-- Characterisation of the search result: if some grid candidate is secure
with post-margin pair `(RF, RP)` and cost `m < usize::MAX`, every secure
grid candidate costs at least `m`, those of cost exactly `m` have
post-margin `rf` at least `RF`, and the ones among them with post-margin
`rf` exactly `RF` are post-margin exactly `(RF, RP)`, then the search
returns `(RF, RP)`. -/
theorem calc_round_numbers_eq (flog2 : ℕ → ℤ) (t : ℕ) (sm : Bool) (RF RP m prf prp : ℕ)
    (hmem : (prf, prp) ∈ allCandidates)
    (hsec : round_numbers_are_secure flog2 prf prp t = true)
    (ham : applyMargin sm (prf, prp) = (RF, RP))
    (hcost : candCost t sm (prf, prp) = m)
    (hm : m < usizeMax)
    (hall : ∀ c ∈ allCandidates, round_numbers_are_secure flog2 c.1 c.2 t = true →
      m ≤ candCost t sm c ∧
        (candCost t sm c = m → RF ≤ (applyMargin sm c).1 ∧
          ((applyMargin sm c).1 = RF → applyMargin sm c = (RF, RP)))) :
    calc_round_numbers flog2 t sm = (RF, RP) := by
  rw [calc_round_numbers_eq_fold]
  have hminle : (foldSearch flog2 t sm allCandidates (0, 0, usizeMax)).2.2 ≤ m := by
    rw [← hcost]
    exact foldSearch_min_le flog2 t sm allCandidates _ (prf, prp) hmem hsec
  obtain hid | ⟨c, hcmem, hcsec, heq⟩ :=
    foldSearch_attained flog2 t sm allCandidates (0, 0, usizeMax)
  · rw [hid] at hminle
    exact absurd hminle (by simpa [usizeMax] using hm)
  · have hcge : m ≤ candCost t sm c := (hall c hcmem hcsec).1
    have hmin : (foldSearch flog2 t sm allCandidates (0, 0, usizeMax)).2.2 = candCost t sm c := by
      rw [heq]
    have hcm : candCost t sm c = m := by omega
    have hRFle : (foldSearch flog2 t sm allCandidates (0, 0, usizeMax)).1 ≤ RF := by
      have := foldSearch_tie_mem flog2 t sm allCandidates (0, 0, usizeMax) (prf, prp) hmem hsec
        (by omega)
      rw [ham] at this
      exact this
    have hRFge : RF ≤ (applyMargin sm c).1 := ((hall c hcmem hcsec).2 hcm).1
    have h1 : (foldSearch flog2 t sm allCandidates (0, 0, usizeMax)).1 = (applyMargin sm c).1 := by
      rw [heq]
    have hRF : (applyMargin sm c).1 = RF := by omega
    have hpair : applyMargin sm c = (RF, RP) := ((hall c hcmem hcsec).2 hcm).2 hRF
    rw [heq, hpair]

theorem usizeMax_eq : usizeMax = 18446744073709551615 := by norm_num [usizeMax]

/-- The search at width 2 without margin returns `(6, 51)`. -/
theorem calc_t2_false : calc_round_numbers flog2ref 2 false = (6, 51) := by
  apply calc_round_numbers_eq flog2ref 2 false 6 51 63 6 51
  · rw [mem_allCandidates]; norm_num
  · rw [secure_iff, rfMaxCode_t2 51 (by norm_num)]; norm_num
  · rfl
  · rfl
  · rw [usizeMax_eq]; norm_num
  · rintro ⟨rf, rp⟩ hmem hsec
    rw [mem_allCandidates] at hmem
    obtain ⟨he, h2, h1000, h4, h199⟩ := hmem
    rw [secure_iff, rfMaxCode_t2 rp h199] at hsec
    have hcost : candCost 2 false (rf, rp) = 2 * rf + rp :=
      n_sboxes_eq rf rp 2 (by omega)
    have ham : applyMargin false (rf, rp) = (rf, rp) := rfl
    simp only [hcost, ham, Prod.mk.injEq]
    split_ifs at hsec <;> omega

/-- Every non-sentinel no-margin result lies on the search grid. -/
theorem result_on_grid (flog2 : ℕ → ℤ) (t RF RP : ℕ)
    (hret : calc_round_numbers flog2 t false = (RF, RP)) (hnz : (RF, RP) ≠ (0, 0)) :
    RF % 2 = 0 ∧ 2 ≤ RF ∧ RF ≤ 1000 ∧ 4 ≤ RP ∧ RP ≤ 199 := by
  rw [calc_round_numbers_eq_fold] at hret
  obtain hid | ⟨c, hcmem, hcsec, heq⟩ :=
    foldSearch_attained flog2 t false allCandidates (0, 0, usizeMax)
  · rw [hid] at hret
    have hz : ((0 : ℕ), (0 : ℕ)) = (RF, RP) := hret
    exact absurd hz.symm hnz
  · rw [heq] at hret
    have hc : (c.1, c.2) = (RF, RP) := hret
    have hRF : c.1 = RF := congrArg Prod.fst hc
    have hRP : c.2 = RP := congrArg Prod.snd hc
    have hcgrid := (mem_allCandidates c.1 c.2).mp hcmem
    rw [hRF, hRP] at hcgrid
    exact hcgrid

/-- If no grid candidate is secure, the sentinel is returned. -/
theorem exhaustion_sentinel (flog2 : ℕ → ℤ) (t : ℕ) (sm : Bool)
    (h : ∀ rf rp, rf % 2 = 0 → 2 ≤ rf → rf ≤ 1000 → 4 ≤ rp → rp ≤ 199 →
      round_numbers_are_secure flog2 rf rp t = false) :
    calc_round_numbers flog2 t sm = (0, 0) := by
  have hall : ∀ c ∈ allCandidates, round_numbers_are_secure flog2 c.1 c.2 t = false := by
    intro c hc
    have hcgrid := (mem_allCandidates c.1 c.2).mp hc
    exact h c.1 c.2 hcgrid.1 hcgrid.2.1 hcgrid.2.2.1 hcgrid.2.2.2.1 hcgrid.2.2.2.2
  rw [calc_round_numbers_eq_fold, foldSearch_skip flog2 t sm allCandidates (0, 0, usizeMax) hall]

/-- With the artificial logarithm `flog2none` nothing on the grid is
secure. -/
theorem flog2none_insecure (rf rp t : ℕ) (h1000 : rf ≤ 1000) (h199 : rp ≤ 199) :
    round_numbers_are_secure flog2none rf rp t = false := by
  have h := rfMaxCode_none rp t h199
  show decide (rfMaxCode flog2none rp t ≤ rf) = false
  exact decide_eq_false (by omega)

/-! ### The invocation log of the security predicate -/

theorem ceil_natCast_div (n d : ℕ) (hd : 0 < d) (hn : 0 < n) :
    ⌈(n : ℚ) / (d : ℚ)⌉ = (((n + d - 1) / d : ℕ) : ℤ) := by
  have hdq : (0 : ℚ) < (d : ℚ) := by exact_mod_cast hd
  obtain ⟨k, hkdef⟩ : ∃ k, (n + d - 1) / d = k := ⟨_, rfl⟩
  obtain ⟨r, hrdef⟩ : ∃ r, (n + d - 1) % d = r := ⟨_, rfl⟩
  rw [hkdef]
  have hdm : d * k + r = n + d - 1 := by
    rw [← hkdef, ← hrdef]; exact Nat.div_add_mod (n + d - 1) d
  have hmlt : r < d := by rw [← hrdef]; exact Nat.mod_lt _ hd
  have hm : n + d - 1 + 1 = n + d := by omega
  have hfact1 : n ≤ d * k := by linarith
  have hk1 : 1 ≤ k := by
    rcases Nat.eq_zero_or_pos k with h0 | h
    · subst h0
      rw [Nat.mul_zero, Nat.zero_add] at hdm
      omega
    · exact h
  have hkk : k - 1 + 1 = k := by omega
  have he : (k - 1) * d + d = d * k := by
    calc (k - 1) * d + d = ((k - 1) + 1) * d := by ring
      _ = k * d := by rw [hkk]
      _ = d * k := Nat.mul_comm k d
  have hfact2 : (k - 1) * d < n := by linarith
  rw [Int.ceil_eq_iff]
  constructor
  · rw [show (((k : ℕ) : ℤ) : ℚ) - 1 = ((k - 1 : ℕ) : ℚ) by
      push_cast [Nat.cast_sub hk1]; ring]
    rw [lt_div_iff hdq]
    exact_mod_cast hfact2
  · rw [div_le_iff hdq]
    have h2 : n ≤ k * d := by
      calc n ≤ d * k := hfact1
        _ = k * d := Nat.mul_comm d k
    exact_mod_cast h2

theorem ceilAsUsize_eq_ceilCastQ (num : ℤ) (d : ℕ) (hd : 0 < d) :
    ceilAsUsize num (d : ℤ) = ceilCastQ ((num : ℚ) / (d : ℚ)) := by
  have hdq : (0 : ℚ) < (d : ℚ) := by exact_mod_cast hd
  rw [ceilAsUsize_pos_den num d hd]
  unfold ceilCastQ
  rcases le_or_lt num 0 with h | h
  · rw [if_pos h, if_pos (by
      rw [div_le_iff hdq, zero_mul]
      exact_mod_cast h)]
  · have hcast : ((num : ℚ)) = ((num.toNat : ℕ) : ℚ) := by
      have h0 : ((num.toNat : ℕ) : ℤ) = num := Int.toNat_of_nonneg (le_of_lt h)
      exact_mod_cast h0.symm
    rw [if_neg (by omega), if_neg (by
      push_neg
      exact div_pos (by exact_mod_cast h) hdq)]
    congr 1
    rw [show ((num : ℚ) / (d : ℚ)) = ((num.toNat : ℕ) : ℚ) / (d : ℚ) by rw [hcast]]
    rw [ceil_natCast_div num.toNat d hd (by omega)]
    exact (Int.toNat_natCast _).symm

/-- The statistical-bound condition in exact rationals matches the integer
one. -/
theorem stat_cond_iff (t : ℕ) :
    ((M : ℚ) ≤ ((PRIME_BITLEN : ℚ) - 3) * ((t : ℚ) + 1)
      ↔ (M : ℤ) ≤ ((PRIME_BITLEN : ℤ) - 3) * ((t : ℤ) + 1)) := by
  rw [show ((PRIME_BITLEN : ℚ) - 3) * ((t : ℚ) + 1)
      = ((((PRIME_BITLEN : ℤ) - 3) * ((t : ℤ) + 1) : ℤ) : ℚ) by push_cast [PRIME_BITLEN]; ring]
  exact_mod_cast Iff.rfl

/-- The claim-side threshold (exact rational arithmetic over the `f32`
constants) coincides with the code-side one for every `t > 1`. -/
theorem rfMaxSpec_eq_rfMaxCode (flog2 : ℕ → ℤ) (rp t : ℕ) (ht : 1 < t) :
    rfMaxSpec flog2 rp t = rfMaxCode flog2 rp t := by
  unfold rfMaxSpec rfMaxCode
  have hstat : (if (M : ℚ) ≤ ((PRIME_BITLEN : ℚ) - 3) * ((t : ℚ) + 1) then (6 : ℕ) else 10)
      = rf_stat_bound t := by
    unfold rf_stat_bound
    exact if_congr (stat_cond_iff t) rfl rfl
  have hinterp : ceilCastQ (c043M + (flog2 t : ℚ) / 2 ^ 23 - rp) = rf_interp_bound flog2 rp t := by
    unfold rf_interp_bound
    rw [show ((2 : ℤ) ^ 23) = ((2 ^ 23 : ℕ) : ℤ) by norm_num,
      ceilAsUsize_eq_ceilCastQ _ _ (by norm_num)]
    congr 1
    unfold c043M
    push_cast
    ring
  have hgrob1 : ceilCastQ (c021N - rp) = rf_grob_1_bound rp := by
    unfold rf_grob_1_bound
    rw [show ((2 : ℤ) ^ 18) = ((2 ^ 18 : ℕ) : ℤ) by norm_num,
      ceilAsUsize_eq_ceilCastQ _ _ (by norm_num)]
    congr 1
    unfold c021N
    push_cast
    ring
  have hgrob2 : ceilCastQ ((c014N1 - rp) / ((t : ℚ) - 1)) = rf_grob_2_bound rp t := by
    unfold rf_grob_2_bound
    rw [show ((t : ℤ) - 1) * 2 ^ 18 = (((t - 1) * 2 ^ 18 : ℕ) : ℤ) by
      push_cast [Nat.cast_sub (le_of_lt ht)]; ring]
    rw [ceilAsUsize_eq_ceilCastQ _ _ (by
      have h1 : 1 ≤ t - 1 := by omega
      calc 0 < 1 * 2 ^ 18 := by norm_num
        _ ≤ (t - 1) * 2 ^ 18 := Nat.mul_le_mul_right _ h1)]
    congr 1
    have ht1 : ((t : ℚ) - 1) ≠ 0 := by
      have h2 : (1 : ℚ) < (t : ℚ) := by exact_mod_cast ht
      intro hc
      rw [sub_eq_zero] at hc
      rw [← hc] at h2
      exact lt_irrefl _ h2
    unfold c014N1
    rw [show (((((t - 1) * 2 ^ 18 : ℕ)) : ℚ)) = ((t : ℚ) - 1) * 2 ^ 18 by
      push_cast [Nat.cast_sub (le_of_lt ht)]; ring]
    field_simp
    ring
  rw [hstat, hinterp, hgrob1, hgrob2]


/-! ### The claims -/

/-- Claim C1: for all `rf`, `rp` and `t > 1`, the security predicate
`round_numbers_are_secure rf rp t` returns `true` exactly when `rf` is at
least the maximum `rf_max` of the four individually ceiling-rounded
floating-point bounds with `n = 256` and `M = 128`: the statistical bound
(`6` if `M ≤ (n-3)(t+1)` else `10`), the interpolation bound
`0.43 M + log2 t - rp`, and the two Groebner bounds `0.21 n - rp` and
`(0.14 n - 1 - rp) / (t - 1)` (stated via the claim-side `rfMaxSpec`,
written in exact rational arithmetic over the `f32` constants). -/
theorem claim_C1 (flog2 : ℕ → ℤ) (rf rp t : ℕ) (ht : 1 < t) :
    round_numbers_are_secure flog2 rf rp t = true ↔ rfMaxSpec flog2 rp t ≤ rf := by
  rw [secure_iff, rfMaxSpec_eq_rfMaxCode flog2 rp t ht]

/-- Witness for C1 at `rf = 6`, `rp = 51`, `t = 2`. -/
theorem claim_C1_witness :
    1 < 2 ∧ (round_numbers_are_secure flog2ref 6 51 2 = true ↔ rfMaxSpec flog2ref 51 2 ≤ 6) :=
  ⟨by norm_num, claim_C1 flog2ref 6 51 2 (by norm_num)⟩

/-- Claim C6: if no candidate in the search grid (even `rf` in `[2, 1000]`,
`rp` in `[4, 199]`) satisfies the security predicate, the search returns
exactly the sentinel `(0, 0)`. -/
theorem claim_C6 (flog2 : ℕ → ℤ) (t : ℕ) (sm : Bool)
    (h : ∀ rf rp, rf % 2 = 0 → 2 ≤ rf → rf ≤ 1000 → 4 ≤ rp → rp ≤ 199 →
      round_numbers_are_secure flog2 rf rp t = false) :
    calc_round_numbers flog2 t sm = (0, 0) :=
  exhaustion_sentinel flog2 t sm h

/-- Witness for C6 with the artificial logarithm `flog2none`, under which
nothing in the grid is secure. -/
theorem claim_C6_witness : calc_round_numbers flog2none 3 false = (0, 0) :=
  claim_C6 flog2none 3 false
    (fun rf rp _ _ h1000 _ h199 => flog2none_insecure rf rp 3 h1000 h199)

/-- Claim C10: every non-sentinel no-margin result lies on the search
grid: `RF` even with `2 ≤ RF ≤ 1000` and `4 ≤ RP ≤ 199`. -/
theorem claim_C10 (flog2 : ℕ → ℤ) (t RF RP : ℕ) (ht : 1 < t)
    (hret : calc_round_numbers flog2 t false = (RF, RP)) (hnz : (RF, RP) ≠ (0, 0)) :
    RF % 2 = 0 ∧ 2 ≤ RF ∧ RF ≤ 1000 ∧ 4 ≤ RP ∧ RP ≤ 199 :=
  result_on_grid flog2 t RF RP hret hnz

/-- Witness for C10 at `t = 2`. -/
theorem claim_C10_witness :
    (1 < 2 ∧ calc_round_numbers flog2ref 2 false = (6, 51) ∧ ((6, 51) : ℕ × ℕ) ≠ (0, 0)) ∧
    (6 % 2 = 0 ∧ 2 ≤ 6 ∧ 6 ≤ 1000 ∧ 4 ≤ 51 ∧ 51 ≤ 199) :=
  ⟨⟨by norm_num, calc_t2_false, by norm_num⟩,
    claim_C10 flog2ref 2 6 51 (by norm_num) calc_t2_false (by norm_num)⟩

end Neptune
